import Mathlib

set_option maxHeartbeats 1000000

/-!
Shallow embedding of TrendRadar's core:
* `trendradar/core/frequency.py` — rulebook parsing and keyword/title matching;
* `trendradar/report/generator.py` — report-data aggregation (`prepare_report_data`).

Strings are modelled as their sequences of Unicode code points (`List Nat`,
obtained with `codes`), mirroring Python strings, which are sequences of code
points.  Case-insensitive comparison is modelled by ASCII lowering (`lowerCode`):
Python's `str.lower` / `re.IGNORECASE` additionally fold some non-ASCII
characters, which never arises for the ASCII keywords and CJK titles this
pipeline handles and is not modelled here.  Python dict records become
structures; fields whose absence is observable in the source (`dict.get`
with a default, `KeyError`) become `Option` fields, and code that can raise
`KeyError` returns `Option`.
-/

/-- The code points of a string, the model of a Python `str`. -/
def codes (s : String) : List Nat := s.toList.map Char.toNat

/-- ASCII whitespace as stripped by Python's `str.strip()` (Python also
strips some Unicode spaces, which do not occur in this pipeline's data). -/
def isPySpace (c : Char) : Bool :=
  c == ' ' || c == '\t' || c == '\n' || c == '\r' || c == '\x0b' || c == '\x0c'

/-- `str.strip()` on a character list. -/
def trimChars (l : List Char) : List Char :=
  ((l.dropWhile isPySpace).reverse.dropWhile isPySpace).reverse

/-- `str.strip()`: whitespace removed from both ends. -/
def pyStrip (s : String) : String := String.mk (trimChars s.toList)

/-- `s.startswith(c)` for a single-character prefix. -/
def strHeadIs (s : String) (c : Char) : Bool :=
  match s.toList with
  | [] => false
  | a :: _ => a == c

/-- `s.endswith(c)` for a single-character suffix. -/
def strLastIs (s : String) (c : Char) : Bool :=
  match s.toList.getLast? with
  | none => false
  | some a => a == c

/-- `s[1:]`. -/
def strDropHead (s : String) : String := String.mk (s.toList.drop 1)

/-- `s[1:-1]` applied after `strDropHead`: drop the last character. -/
def strDropLast (s : String) : String := String.mk (s.toList.dropLast)

/-- `split("\n")` on a character list. -/
def splitNl : List Char → List (List Char)
  | [] => [[]]
  | c :: rest =>
    if c = '\n' then [] :: splitNl rest
    else
      match splitNl rest with
      | [] => [[c]]
      | h :: t => (c :: h) :: t

/-- `split("\n\n")` on a character list: non-overlapping leftmost matches,
Python `str.split` with a two-character separator. -/
def splitNlNl : List Char → List (List Char)
  | [] => [[]]
  | '\n' :: '\n' :: rest => [] :: splitNlNl rest
  | c :: rest =>
    match splitNlNl rest with
    | [] => [[c]]
    | h :: t => (c :: h) :: t

/-- `content.split("\n\n")` as strings. -/
def splitBlocksStr (s : String) : List String := (splitNlNl s.toList).map String.mk

/-- `block.split("\n")` as strings. -/
def splitLinesStr (s : String) : List String := (splitNl s.toList).map String.mk

/-- ASCII lowering of one code point, the model of Python lower-casing used
by `str.lower()` and `re.IGNORECASE` on the ASCII range. -/
def lowerCode (n : Nat) : Nat := if 65 ≤ n ∧ n ≤ 90 then n + 32 else n

/-- The code points of a string, lower-cased: model of `s.lower()`. -/
def codesLower (s : String) : List Nat := (codes s).map lowerCode

/-- Membership in the regex character class `[A-Za-z0-9]` used by the ASCII
boundary pattern in `_compile_ascii_boundary_pattern`. -/
def isAsciiAlnumCode (n : Nat) : Bool :=
  decide ((65 ≤ n ∧ n ≤ 90) ∨ (97 ≤ n ∧ n ≤ 122) ∨ (48 ≤ n ∧ n ≤ 57))

/-- `_should_use_ascii_word_boundary` from frequency.py: true iff the keyword
is 2–4 characters long and consists solely of ASCII letters/digits
(`keyword.isascii() and keyword.isalnum()`). -/
def should_use_ascii_word_boundary (keyword : String) : Bool :=
  if keyword = "" then false
  else if keyword.length < 2 || keyword.length > 4 then false
  else (codes keyword).all (fun n => decide (n < 128)) && (codes keyword).all isAsciiAlnumCode

/-- Case-insensitive equality of two code points (ASCII folding), the model of
a literal character under `re.IGNORECASE`. -/
def charMatchCI (a b : Nat) : Bool := lowerCode a == lowerCode b

/-- Try to match `kw` case-insensitively at the head of `ts`; on success
return the remaining suffix of `ts`. -/
def matchPrefixCI : List Nat → List Nat → Option (List Nat)
  | ts, [] => some ts
  | [], _ :: _ => none
  | t :: ts, k :: ks => if charMatchCI t k then matchPrefixCI ts ks else none

/-- The negative lookbehind `(?<![A-Za-z0-9])`: satisfied at the string start
or after a non-word character. -/
def boundaryOkBefore : Option Nat → Bool
  | none => true
  | some c => !isAsciiAlnumCode c

/-- The negative lookahead `(?![A-Za-z0-9])`: satisfied at the string end or
before a non-word character. -/
def boundaryOkAfter : List Nat → Bool
  | [] => true
  | c :: _ => !isAsciiAlnumCode c

/-- One anchored attempt of the boundary pattern at the current position
(`prev` is the character just before the position, `none` at the start). -/
def matchAtBoundary (kw : List Nat) (prev : Option Nat) (ts : List Nat) : Bool :=
  boundaryOkBefore prev &&
    (match matchPrefixCI ts kw with
     | some rest => boundaryOkAfter rest
     | none => false)

/-- `re.search` of the boundary pattern: try every position left to right. -/
def boundarySearchAux (kw : List Nat) : Option Nat → List Nat → Bool
  | prev, [] => matchAtBoundary kw prev []
  | prev, c :: ts => matchAtBoundary kw prev (c :: ts) || boundarySearchAux kw (some c) ts

/-- `pattern.search(title)` for the compiled ASCII-boundary pattern
`(?<![A-Za-z0-9])kw(?![A-Za-z0-9])` with `re.IGNORECASE`. -/
def boundarySearch (kw : List Nat) (ts : List Nat) : Bool := boundarySearchAux kw none ts

/-- The effective look-behind constraint at a position reached with `pre`
consumed and `prev` the character just before `pre`: the character preceding
the match is `pre`'s last one, or `prev` when `pre` is empty. -/
def beforeOk (prev : Option Nat) (pre : List Nat) : Bool :=
  match pre.getLast? with
  | some c => !isAsciiAlnumCode c
  | none => boundaryOkBefore prev

/-- Does `hay` start with `needle` (exact code-point equality)? -/
def startsWithSeq : List Nat → List Nat → Bool
  | _, [] => true
  | [], _ :: _ => false
  | t :: ts, k :: ks => (t == k) && startsWithSeq ts ks

/-- Python's `needle in hay` substring containment on code-point sequences. -/
def containsSeq : List Nat → List Nat → Bool
  | hay, needle =>
    startsWithSeq hay needle ||
      (match hay with
       | [] => false
       | _ :: rest => containsSeq rest needle)

/-- `_keyword_in_title` from frequency.py: short pure-ASCII keywords (2–4
alphanumeric characters) are matched with the ASCII-boundary pattern against
the original title; every other keyword by lower-cased substring containment
against the pre-lowered title. -/
def keyword_in_title (title : String) (title_lower : List Nat) (keyword : String) : Bool :=
  if keyword = "" then false
  else if should_use_ascii_word_boundary keyword then
    boundarySearch (codesLower keyword) (codes title)
  else
    containsSeq title_lower (codesLower keyword)

/-- A parsed word group (`processed_groups` element in `load_frequency_words`). -/
structure WordGroup where
  required : List String
  normal : List String
  group_key : String
  max_count : Int
deriving DecidableEq

/-- `matches_group` from frequency.py: required words must all match
(vacuously when absent) and at least one normal word must match (vacuously
when absent).  The defensive non-string coercion of the source is outside the
typed model; the empty-title guard is kept. -/
def matches_group (title : String) (group : WordGroup) : Bool :=
  if title = "" then false
  else
    let title_lower := codesLower title
    (group.required.isEmpty || group.required.all (fun w => keyword_in_title title title_lower w)) &&
    (group.normal.isEmpty || group.normal.any (fun w => keyword_in_title title title_lower w))

/-- `matches_word_groups` from frequency.py: blank titles never match; global
filters reject first; an empty rulebook is pass-through; then flat filter
words reject; finally any group match admits. -/
def matches_word_groups (title : String) (word_groups : List WordGroup)
    (filter_words : List String) (global_filters : List String) : Bool :=
  if pyStrip title = "" then false
  else
    let title_lower := codesLower title
    if global_filters.any (fun w => keyword_in_title title title_lower w) then false
    else if word_groups.isEmpty then true
    else if filter_words.any (fun w => keyword_in_title title title_lower w) then false
    else word_groups.any (fun g => matches_group title g)

/-- `matches_word_groups` with the source's defensive coercion of a `None`
title: `title = str(title) if title is not None else ""` maps `None` to the
empty string before processing. -/
def matches_word_groups_opt (title : Option String) (word_groups : List WordGroup)
    (filter_words : List String) (global_filters : List String) : Bool :=
  matches_word_groups (match title with | none => "" | some s => s)
    word_groups filter_words global_filters

/-! ## Rulebook parsing (`load_frequency_words`) -/

/-- Is `n` the code point of an ASCII decimal digit? -/
def isDigitCode (c : Char) : Bool := decide ('0' ≤ c ∧ c ≤ '9')

/-- Digit-sequence tail of Python `int(str)`: decimal digits with single
underscores allowed between digits (`lastDigit` records whether the previous
character was a digit). -/
def parseDigitsAux : List Char → Nat → Bool → Option Nat
  | [], acc, lastDigit => if lastDigit then some acc else none
  | c :: cs, acc, lastDigit =>
    if isDigitCode c then parseDigitsAux cs (acc * 10 + (c.toNat - 48)) true
    else if c = '_' then (if lastDigit then parseDigitsAux cs acc false else none)
    else none

/-- Unsigned part of Python `int(str)`. -/
def parsePyNat (s : List Char) : Option Nat := parseDigitsAux s 0 false

/-- Model of Python `int(str)` on ASCII input: surrounding whitespace is
stripped, one optional sign, then decimal digits with single underscores
between digits; anything else raises `ValueError`, modelled as `none`. -/
def parsePyInt (s : String) : Option Int :=
  match (pyStrip s).toList with
  | '+' :: rest => (parsePyNat rest).map Int.ofNat
  | '-' :: rest => (parsePyNat rest).map (fun n => -(Int.ofNat n : Int))
  | cs => (parsePyNat cs).map Int.ofNat

/-- Accumulator of the per-word loop in the word-group section of
`load_frequency_words`. -/
structure GroupAcc where
  required : List String
  normal : List String
  filters : List String
  maxCount : Int
deriving DecidableEq

/-- Initial accumulator: `group_max_count = 0` means "unlimited". -/
def initGroupAcc : GroupAcc := ⟨[], [], [], 0⟩

/-- One iteration of the word-group line loop in `load_frequency_words`:
`@N` sets `maxCount` when `N` parses as a positive integer (invalid or
non-positive values are silently ignored), `!w` collects a filter word,
`+w` a required word, anything else a normal word. -/
def processGroupWord (acc : GroupAcc) (word : String) : GroupAcc :=
  if strHeadIs word '@' then
    match parsePyInt (strDropHead word) with
    | some n => if n > 0 then { acc with maxCount := n } else acc
    | none => acc
  else if strHeadIs word '!' then
    { acc with filters := acc.filters ++ [strDropHead word] }
  else if strHeadIs word '+' then
    { acc with required := acc.required ++ [strDropHead word] }
  else
    { acc with normal := acc.normal ++ [word] }

/-- The value an `@` line contributes: `some n` iff the line starts with `@`
and the rest parses as a positive integer. -/
def atLineValue (w : String) : Option Int :=
  if strHeadIs w '@' then
    match parsePyInt (strDropHead w) with
    | some n => if n > 0 then some n else none
    | none => none
  else none

/-- Running parser state of `load_frequency_words`. -/
structure ParseState where
  groups : List WordGroup
  filter_words : List String
  global_filters : List String
  currentSection : String
deriving DecidableEq

/-- ASCII upper-casing, model of `str.upper()` for the section tags. -/
def strUpperStr (s : String) : String :=
  String.mk (s.toList.map Char.toUpper)

/-- Processing of one blank-line-separated block in `load_frequency_words`:
an initial `[NAME]` line switches the section when `NAME` is recognized;
the global-filter section collects plain lines (ignoring special prefixes);
the word-group section folds `processGroupWord` and emits a group when it
has required or normal words, with `group_key` the space-joined normal words
if any, else the space-joined required words. -/
def processBlock (st : ParseState) (block : String) : ParseState :=
  let lines := ((splitLinesStr block).map pyStrip).filter (fun l => l ≠ "")
  match lines with
  | [] => st
  | l0 :: rest =>
    let tagged := strHeadIs l0 '[' && strLastIs l0 ']'
    let secName := strUpperStr (strDropLast (strDropHead l0))
    let recognized := tagged && (secName == "GLOBAL_FILTER" || secName == "WORD_GROUPS")
    let cur := if recognized then secName else st.currentSection
    let body := if recognized then rest else l0 :: rest
    if cur = "GLOBAL_FILTER" then
      let adds := body.filter
        (fun l => !(strHeadIs l '!' || strHeadIs l '+' || strHeadIs l '@'))
      { st with currentSection := cur, global_filters := st.global_filters ++ adds }
    else
      let acc := body.foldl processGroupWord initGroupAcc
      let group_key :=
        if !acc.normal.isEmpty then String.intercalate " " acc.normal
        else String.intercalate " " acc.required
      { st with
        currentSection := cur,
        filter_words := st.filter_words ++ acc.filters,
        groups :=
          if !acc.required.isEmpty || !acc.normal.isEmpty then
            st.groups ++ [⟨acc.required, acc.normal, group_key, acc.maxCount⟩]
          else st.groups }

/-- `load_frequency_words` from frequency.py applied to the rulebook text
(file access and the `FileNotFoundError` path are outside the model):
split into blank-line-separated blocks and fold `processBlock`, starting in
the backward-compatible `WORD_GROUPS` section. -/
def load_frequency_words (content : String) :
    List WordGroup × List String × List String :=
  let blocks := ((splitBlocksStr content).map pyStrip).filter (fun b => b ≠ "")
  let st := blocks.foldl processBlock ⟨[], [], [], "WORD_GROUPS"⟩
  (st.groups, st.filter_words, st.global_filters)

/-! ## Generic stable insertion sort

Python's `list.sort` / `sorted` are stable ascending sorts.  They are modelled
by insertion sort, which is stable by construction: an element is inserted
before the first already-placed element it is `le`-below, and after every
element it ties with. -/

/-- Insert `x` into `l`, keeping `x` before the first element `y` with
`le x y` (so equal elements keep their original relative order). -/
def insertLe {α : Type} (le : α → α → Bool) (x : α) : List α → List α
  | [] => [x]
  | y :: ys => if le x y then x :: y :: ys else y :: insertLe le x ys

/-- Stable insertion sort with comparator `le`. -/
def insSort {α : Type} (le : α → α → Bool) : List α → List α
  | [] => []
  | x :: xs => insertLe le x (insSort le xs)

theorem mem_insertLe {α : Type} (le : α → α → Bool) (x : α) (l : List α) (a : α) :
    a ∈ insertLe le x l ↔ a = x ∨ a ∈ l := by
  induction l with
  | nil => simp [insertLe]
  | cons y ys ih =>
    rw [insertLe]
    by_cases h : le x y = true
    · simp [h]
    · rw [if_neg h]
      simp only [List.mem_cons, ih]
      tauto

theorem mem_insSort {α : Type} (le : α → α → Bool) (l : List α) (a : α) :
    a ∈ insSort le l ↔ a ∈ l := by
  induction l with
  | nil => simp [insSort]
  | cons x xs ih => simp [insSort, mem_insertLe, ih]

theorem pairwise_insertLe {α : Type} (le : α → α → Bool)
    (htot : ∀ a b, le a b = true ∨ le b a = true)
    (htrans : ∀ a b c, le a b = true → le b c = true → le a c = true)
    (x : α) (l : List α) (hl : l.Pairwise (fun a b => le a b = true)) :
    (insertLe le x l).Pairwise (fun a b => le a b = true) := by
  induction l with
  | nil => simp [insertLe]
  | cons y ys ih =>
    rcases List.pairwise_cons.mp hl with ⟨hy, hys⟩
    by_cases h : le x y = true
    · rw [insertLe, if_pos h]
      refine List.pairwise_cons.mpr ⟨?_, hl⟩
      intro z hz
      rcases List.mem_cons.mp hz with rfl | hz'
      · exact h
      · exact htrans x y z h (hy z hz')
    · rw [insertLe, if_neg h]
      refine List.pairwise_cons.mpr ⟨?_, ih hys⟩
      intro z hz
      rcases (mem_insertLe le x ys z).mp hz with rfl | hz'
      · rcases htot y z with hyz | hzy
        · exact hyz
        · exact absurd hzy h
      · exact hy z hz'

theorem pairwise_insSort {α : Type} (le : α → α → Bool)
    (htot : ∀ a b, le a b = true ∨ le b a = true)
    (htrans : ∀ a b c, le a b = true → le b c = true → le a c = true)
    (l : List α) :
    (insSort le l).Pairwise (fun a b => le a b = true) := by
  induction l with
  | nil => simp [insSort]
  | cons x xs ih => exact pairwise_insertLe le htot htrans x (insSort le xs) ih

theorem filter_insertLe_pos {α : Type} (le : α → α → Bool) (p : α → Bool)
    (x : α) (l : List α) (hpx : p x = true)
    (hlt : ∀ y, le x y = false → p y = false) :
    (insertLe le x l).filter p = x :: l.filter p := by
  induction l with
  | nil => simp [insertLe, hpx]
  | cons y ys ih =>
    by_cases h : le x y = true
    · rw [insertLe, if_pos h, List.filter_cons, if_pos hpx]
    · rw [insertLe, if_neg h, List.filter_cons]
      have hpy : p y = false := hlt y (by simpa using h)
      rw [if_neg (by simp [hpy]), ih, List.filter_cons, if_neg (by simp [hpy])]

theorem filter_insertLe_neg {α : Type} (le : α → α → Bool) (p : α → Bool)
    (x : α) (l : List α) (hpx : p x = false) :
    (insertLe le x l).filter p = l.filter p := by
  induction l with
  | nil => simp [insertLe, hpx]
  | cons y ys ih =>
    by_cases h : le x y = true
    · rw [insertLe, if_pos h, List.filter_cons, if_neg (by simp [hpx])]
    · rw [insertLe, if_neg h, List.filter_cons, List.filter_cons, ih]

/-- Stability of `insSort` for a key-based comparator: within each class of
key-equal elements the input order is preserved. -/
theorem filter_insSort_key {α κ : Type} [DecidableEq κ] (key : α → κ)
    (keyLe : κ → κ → Bool) (hrefl : ∀ k, keyLe k k = true)
    (l : List α) (k : κ) :
    (insSort (fun a b => keyLe (key a) (key b)) l).filter (fun a => decide (key a = k)) =
      l.filter (fun a => decide (key a = k)) := by
  induction l with
  | nil => rfl
  | cons x xs ih =>
    rw [insSort, List.filter_cons]
    by_cases hx : key x = k
    · have hlt : ∀ y, (fun a b => keyLe (key a) (key b)) x y = false →
          (fun a => decide (key a = k)) y = false := by
        intro y hy
        by_cases hky : key y = k
        · exfalso
          simp only at hy
          rw [hky, ← hx, hrefl (key x)] at hy
          exact absurd hy (by simp)
        · simp [hky]
      have hpx : (fun a => decide (key a = k)) x = true := by simp [hx]
      rw [filter_insertLe_pos (fun a b => keyLe (key a) (key b))
            (fun a => decide (key a = k)) x
            (insSort (fun a b => keyLe (key a) (key b)) xs) hpx hlt, ih]
      simp [hx]
    · have hpx : (fun a => decide (key a = k)) x = false := by simp [hx]
      rw [filter_insertLe_neg (fun a b => keyLe (key a) (key b))
            (fun a => decide (key a = k)) x
            (insSort (fun a b => keyLe (key a) (key b)) xs) hpx, ih]
      simp [hx]

/-! ## Report aggregation (`prepare_report_data` in generator.py)

A stat record's `word`, `count`, `position` and `percentage` keys can be
absent in the source (they are read with `dict.get`), so they are `Option`
fields; `none` models an absent key.  Title records are read with plain
indexing for all keys except the two mobile-URL spellings and `url`/`is_new`,
so only the mobile-URL fields are `Option`. -/

/-- A title record (`title_data` dict) as consumed by `prepare_report_data`. -/
structure TitleData where
  title : String
  source_name : String
  time_display : String
  count : Int
  ranks : List Int
  rank_threshold : Int
  url : String
  mobile_url : Option String
  mobileUrl : Option String
  is_new : Bool
deriving DecidableEq

/-- A stat record (`stat` dict) as consumed by `prepare_report_data`. -/
structure Stat where
  word : Option String
  count : Option Int
  position : Option Int
  percentage : Option Int
  titles : List TitleData
deriving DecidableEq

/-- `PERSONAL_RSS_GROUP_KEY` from generator.py. -/
def PERSONAL_RSS_GROUP_KEY : String := "个人博客更新"

/-- Lookup in an insertion-ordered string-keyed map (Python dict model). -/
def assocGet {α : Type} (m : List (String × α)) (k : String) : Option α :=
  (m.find? (fun p => p.1 == k)).map Prod.snd

/-- `m[k] = v` on an insertion-ordered string-keyed map: replace the value in
place when the key exists, else append the new binding at the end — exactly
Python dict assignment under insertion order. -/
def assocSet {α : Type} : List (String × α) → String → α → List (String × α)
  | [], k, v => [(k, v)]
  | p :: rest, k, v =>
    if p.1 = k then (k, v) :: rest else p :: assocSet rest k v

/-- Python truthiness of the `word` value: an absent key or an empty string
is falsy. -/
def truthyWord : Option String → Option String
  | none => none
  | some w => if w = "" then none else some w

/-- The in-place update of a merged entry in `prepare_report_data` when an
RSS stat shares its key: counts add (absent treated as 0), titles concatenate
primary-first, position becomes the minimum (absent treated as 999),
percentages add (absent treated as 0); the other fields of the primary copy
are kept. -/
def mergeStatPair (merged rss : Stat) : Stat :=
  { merged with
    count := some ((merged.count.getD 0) + (rss.count.getD 0)),
    titles := merged.titles ++ rss.titles,
    position := some (min (merged.position.getD 999) (rss.position.getD 999)),
    percentage := some ((merged.percentage.getD 0) + (rss.percentage.getD 0)) }

/-- First loop of the merge: copy every primary stat with a truthy `word`
into the map (a later duplicate key overwrites in place). -/
def buildPrimaryMap (stats : List Stat) : List (String × Stat) :=
  stats.foldl
    (fun m s =>
      match truthyWord s.word with
      | none => m
      | some w => assocSet m w s) []

/-- Second loop of the merge, one RSS stat: skip falsy words; merge into an
existing entry with `mergeStatPair`, else insert the RSS stat as a new
record. -/
def mergeRssStep (m : List (String × Stat)) (r : Stat) : List (String × Stat) :=
  match truthyWord r.word with
  | none => m
  | some w =>
    match assocGet m w with
    | some p => assocSet m w (mergeStatPair p r)
    | none => assocSet m w r

/-- The merged (unsorted) stats list: dict values in insertion order. -/
def mergeRss (stats rss : List Stat) : List Stat :=
  ((rss.foldl mergeRssStep (buildPrimaryMap stats)).map Prod.snd)

/-- The sort key `(-int(x.get("count", 0) or 0), int(x.get("position", 999) or 999))`
of the merged stats.  Note that `or 999` sends a present position of `0`
(falsy in Python) to 999, not only an absent one. -/
def statSortKey (s : Stat) : Int × Int :=
  (-(s.count.getD 0),
    match s.position with
    | none => 999
    | some p => if p = 0 then 999 else p)

/-- Lexicographic `≤` on pairs of integers, the order of Python tuple
comparison for the sort key. -/
def lexLeII (a b : Int × Int) : Bool :=
  decide (a.1 < b.1) || (decide (a.1 = b.1) && decide (a.2 ≤ b.2))

/-- Comparator of the `stats.sort(key=...)` call. -/
def statLe (a b : Stat) : Bool := lexLeII (statSortKey a) (statSortKey b)

/-- `stats.sort(key=lambda x: (-count, position))`: stable ascending sort. -/
def sortStats (l : List Stat) : List Stat :=
  insSort (fun a b => lexLeII (statSortKey a) (statSortKey b)) l

/-- The whole keyword-RSS merge stage: runs (merge then sort) only when at
least one keyword-bearing RSS stat is present, else the primary stats pass
through untouched. -/
def mergeStage (stats rssKeyword : List Stat) : List Stat :=
  if rssKeyword.isEmpty then stats else sortStats (mergeRss stats rssKeyword)

/-! ### Personal-feed regrouping -/

/-- `all_personal_titles`: flatten the title lists of the personal group. -/
def flattenPersonal (personal : List Stat) : List TitleData :=
  personal.foldl (fun acc s => acc ++ s.titles) []

/-- `feed_name = title_data.get("source_name", "") or "RSS"`. -/
def feedNameOf (t : TitleData) : String :=
  if t.source_name = "" then "RSS" else t.source_name

/-- Bucket titles by feed name with `setdefault`-and-append semantics:
buckets appear in first-occurrence order, items in arrival order. -/
def groupByFeed (titles : List TitleData) : List (String × List TitleData) :=
  titles.foldl
    (fun m t => assocSet m (feedNameOf t) (((assocGet m (feedNameOf t)).getD []) ++ [t])) []

/-- `_rank_key`: the minimum of `ranks`, 999 when `ranks` is empty. -/
def rankKey (t : TitleData) : Int :=
  match t.ranks with
  | [] => 999
  | r :: rs => rs.foldl min r

/-- `sorted(items, key=_rank_key)`: stable ascending by the rank key. -/
def sortByRank (items : List TitleData) : List TitleData :=
  insSort (fun a b => decide (rankKey a ≤ rankKey b)) items

/-- The display copy of an item: feed name and ranks are cleared. -/
def cleanItem (t : TitleData) : TitleData :=
  { t with source_name := "", ranks := [] }

/-- `latest_rank`: the rank key of the first sorted item, 999 for an empty
bucket. -/
def latestRank (sortedItems : List TitleData) : Int :=
  match sortedItems with
  | [] => 999
  | t :: _ => rankKey t

/-- The comparator of `feed_summaries.sort(key=lambda x: (x[2], -len(x[1]), x[0]))`:
latest rank ascending, then item count descending, then feed name ascending
(Python string comparison is code-point lexicographic, as is `String`'s
linear order). -/
def feedLe (a b : String × List TitleData × Int) : Bool :=
  decide (a.2.2 < b.2.2) ||
    (decide (a.2.2 = b.2.2) &&
      (decide (b.2.1.length < a.2.1.length) ||
        (decide (a.2.1.length = b.2.1.length) && decide (a.1 ≤ b.1))))

/-- The sort key of a feed summary, used to state stability. -/
def feedKey (x : String × List TitleData × Int) : Int × Nat × String :=
  (x.2.2, x.2.1.length, x.1)

/-- The sorted `feed_summaries` list: per feed, the cleaned sorted items and
the bucket's latest rank; buckets ordered by `feedLe`. -/
def feedSummaries (personal : List Stat) : List (String × List TitleData × Int) :=
  let buckets := groupByFeed (flattenPersonal personal)
  let summaries := buckets.map
    (fun p =>
      let sortedItems := sortByRank p.2
      (p.1, sortedItems.map cleanItem, latestRank sortedItems))
  insSort feedLe summaries

/-- The `personal_feed_stats` output: one synthetic stat per feed bucket,
`position` its ordinal index after ordering. -/
def personalFeedStats (personal : List Stat) : List Stat :=
  if personal.isEmpty then []
  else
    (feedSummaries personal).enum.map
      (fun p =>
        { word := some p.2.1, count := some (Int.ofNat p.2.2.1.length),
          position := some (Int.ofNat p.1), percentage := some 0,
          titles := p.2.2.1 })

/-! ### New-title filtering and the final sanitation pass -/

/-- A `title_data` record inside `new_titles` (only `url`, `mobileUrl` and
`ranks` are read, each with a `get` default). -/
structure NewTitleData where
  url : String
  mobileUrl : String
  ranks : List Int
deriving DecidableEq

/-- A title after the normalizing projection of the sanitation pass (and of
the new-title section). -/
structure ProcessedTitle where
  title : String
  source_name : String
  time_display : String
  count : Int
  ranks : List Int
  rank_threshold : Int
  url : String
  mobile_url : String
  is_new : Bool
deriving DecidableEq

/-- A stat in the final payload. -/
structure ProcessedStat where
  word : String
  count : Int
  percentage : Int
  titles : List ProcessedTitle
deriving DecidableEq

/-- One emitted new-title group. -/
structure NewTitleGroup where
  source_id : String
  source_name : String
  titles : List ProcessedTitle
deriving DecidableEq

/-- The returned payload of `prepare_report_data`. -/
structure ReportPayload where
  stats : List ProcessedStat
  new_titles : List NewTitleGroup
  rss_stats : List Stat
  rss_new_stats : List Stat
  failed_ids : List String
  total_new_count : Int
deriving DecidableEq

/-- The title projection of the sanitation pass.  The mobile URL is
`title_data.get("mobile_url") or title_data.get("mobileUrl", "")`: the
canonical field wins only when present and non-empty (an empty string is
falsy), else the legacy field, else the empty string. -/
def processTitle (t : TitleData) : ProcessedTitle :=
  { title := t.title, source_name := t.source_name, time_display := t.time_display,
    count := t.count, ranks := t.ranks, rank_threshold := t.rank_threshold,
    url := t.url,
    mobile_url :=
      match t.mobile_url with
      | some s => if s = "" then t.mobileUrl.getD "" else s
      | none => t.mobileUrl.getD "",
    is_new := t.is_new }

/-- The sanitation pass over the merged stats: `stat["count"]` and
`stat["word"]` are plain indexing, so an absent key raises `KeyError`
(modelled as `none`); entries with `count <= 0` are skipped; surviving
entries are projected with `processTitle`. -/
def processStats : List Stat → Option (List ProcessedStat)
  | [] => some []
  | s :: rest =>
    match s.count with
    | none => none
    | some c =>
      if c ≤ 0 then processStats rest
      else
        match s.word with
        | none => none
        | some w =>
          match processStats rest with
          | none => none
          | some ps =>
            some ({ word := w, count := c, percentage := s.percentage.getD 0,
                    titles := s.titles.map processTitle } :: ps)

/-- The projection of one new title (`processed_title` in the source). -/
def processNewTitle (source_name : String) (rank_threshold : Int)
    (title : String) (td : NewTitleData) : ProcessedTitle :=
  { title := title, source_name := source_name, time_display := "", count := 1,
    ranks := td.ranks, rank_threshold := rank_threshold, url := td.url,
    mobile_url := td.mobileUrl, is_new := true }

/-- `prepare_report_data` from generator.py.  `new_titles` and `id_to_name`
are insertion-ordered dicts (assoc lists, `[]` standing for Python's
`None`/empty, both falsy); the two injectable collaborators are optional
functions as in the source; the observability `print` has no effect on the
result and is not modelled. -/
def prepare_report_data
    (stats : List Stat) (failed_ids : List String)
    (new_titles : List (String × List (String × NewTitleData)))
    (id_to_name : List (String × String))
    (mode : String) (rank_threshold : Int)
    (matchesFunc : Option (String → List WordGroup → List String → List String → Bool))
    (loadFunc : Option (Unit → List WordGroup × List String × List String))
    (rss_stats : List Stat) (rss_new_stats : List Stat) :
    Option ReportPayload :=
  let personal_rss_stats := rss_stats.filter (fun s => s.word == some PERSONAL_RSS_GROUP_KEY)
  let rss_keyword_stats := rss_stats.filter (fun s => !(s.word == some PERSONAL_RSS_GROUP_KEY))
  let stats1 := mergeStage stats rss_keyword_stats
  let personal_feed_stats := personalFeedStats personal_rss_stats
  let hide_new_section := mode == "incremental"
  let processed_new_titles :=
    if hide_new_section then []
    else
      let filtered_new_titles :=
        if !new_titles.isEmpty && !id_to_name.isEmpty then
          match matchesFunc, loadFunc with
          | some mf, some lf =>
            let wgf := lf ()
            ((new_titles.map
                (fun p => (p.1, p.2.filter (fun q => mf q.1 wgf.1 wgf.2.1 wgf.2.2)))).filter
              (fun p => !p.2.isEmpty))
          | _, _ => new_titles
        else []
      if !filtered_new_titles.isEmpty && !id_to_name.isEmpty then
        (filtered_new_titles.map
            (fun p =>
              let sname := (assocGet id_to_name p.1).getD p.1
              { source_id := p.1, source_name := sname,
                titles := p.2.map (fun q => processNewTitle sname rank_threshold q.1 q.2)
                : NewTitleGroup })).filter
          (fun g => !g.titles.isEmpty)
      else []
  let _ := rss_new_stats
  match processStats stats1 with
  | none => none
  | some pstats =>
    some { stats := pstats, new_titles := processed_new_titles,
           rss_stats := personal_feed_stats, rss_new_stats := [],
           failed_ids := failed_ids,
           total_new_count :=
             Int.ofNat ((processed_new_titles.map (fun g => g.titles.length)).sum) }

/-! ## Spec-side predicates and concrete records used by the claims -/

/-- Spec-side: `keyword` occurs case-insensitively in `title` with no ASCII
letter/digit immediately before or after the occurrence. -/
def boundaryHitSpec (keyword title : String) : Prop :=
  ∃ pre mid post, codes title = pre ++ mid ++ post ∧
    mid.map lowerCode = (codes keyword).map lowerCode ∧
    (∀ c, pre.getLast? = some c → isAsciiAlnumCode c = false) ∧
    (∀ c, post.head? = some c → isAsciiAlnumCode c = false)

/-- Spec-side: `keyword` is a case-insensitive substring of `title`. -/
def substrCISpec (keyword title : String) : Prop :=
  ∃ pre mid post, codes title = pre ++ mid ++ post ∧
    mid.map lowerCode = (codes keyword).map lowerCode

/-- Title record of the C9 counterexample: both mobile-URL spellings present,
the canonical one empty. -/
def c9Title : TitleData :=
  { title := "t", source_name := "s", time_display := "", count := 1, ranks := [],
    rank_threshold := 3, url := "", mobile_url := some "",
    mobileUrl := some "https://m.example/x", is_new := false }

/-- `{word:"A", count:5}` (no position) of the C4 example. -/
def cexStatA : Stat :=
  { word := some "A", count := some 5, position := none, percentage := none, titles := [] }

/-- `{word:"B", count:5, position:1}` of the C4 example. -/
def cexStatB : Stat :=
  { word := some "B", count := some 5, position := some 1, percentage := none, titles := [] }

/-- `{word:"C", count:7}` of the C4 example, fed in through the RSS side so
that the merge-and-sort stage runs. -/
def cexStatC : Stat :=
  { word := some "C", count := some 7, position := none, percentage := none, titles := [] }

/-- A personal-feed title with the given feed name, title and ranks. -/
def mkFeedTitle (nm ttl : String) (rk : List Int) : TitleData :=
  { title := ttl, source_name := nm, time_display := "", count := 1, ranks := rk,
    rank_threshold := 3, url := "", mobile_url := none, mobileUrl := none, is_new := false }

/-- The C5 example personal group: Feed1 holds items ranked [2] and [5],
Feed2 one item ranked [1]. -/
def c5Personal : Stat :=
  { word := some PERSONAL_RSS_GROUP_KEY, count := some 3, position := none,
    percentage := none,
    titles := [mkFeedTitle "Feed1" "f1-r2" [2], mkFeedTitle "Feed1" "f1-r5" [5],
      mkFeedTitle "Feed2" "f2-r1" [1]] }

/-- A primary stat with a present-but-empty `word` and positive count (C10). -/
def c10EmptyWordStat : Stat :=
  { word := some "", count := some 1, position := none, percentage := none, titles := [] }

/-- Primary "芯片" stat of the C3 witness. -/
def c3Primary : Stat :=
  { word := some "芯片", count := some 3, position := some 4, percentage := none,
    titles := [mkFeedTitle "A" "A-item" [1]] }

/-- Secondary (RSS) "芯片" stat of the C3 witness. -/
def c3Rss : Stat :=
  { word := some "芯片", count := some 2, position := none, percentage := none,
    titles := [mkFeedTitle "B" "B-item" [2]] }

/-- A `count = 0` stat with a non-empty titles list (C6 witness). -/
def c6ZeroStat : Stat :=
  { word := some "zero", count := some 0, position := none, percentage := none,
    titles := [mkFeedTitle "Z" "Z-item" [1]] }

/-- The payload produced in the C6 witness run. -/
def c6Payload : ReportPayload :=
  { stats := [⟨"C", 7, 0, []⟩], new_titles := [], rss_stats := [],
    rss_new_stats := [], failed_ids := [], total_new_count := 0 }

/-! # Theorems -/


/-- **C7**: for every rulebook, `matches_word_groups` returns `false` on a
blank (all-whitespace or empty) title, with no exception (the function is
total), and a `None` title is coerced to the empty string and rejected the
same way; the rejection is independent of groups and filters, so it applies
in pass-through mode and before any filter is consulted. -/
theorem frequency_c7 (word_groups : List WordGroup)
    (filter_words global_filters : List String) :
    (∀ title : String, pyStrip title = "" →
        matches_word_groups title word_groups filter_words global_filters = false)
  ∧ matches_word_groups_opt none word_groups filter_words global_filters = false := by
  constructor
  · intro title h
    rw [matches_word_groups, if_pos h]
  · show matches_word_groups "" word_groups filter_words global_filters = false
    rw [matches_word_groups, if_pos (show pyStrip "" = "" from rfl)]

/-- Witness for C7 at a whitespace-only title and a non-trivial rulebook. -/
theorem frequency_c7_witness :
    matches_word_groups " \t " [⟨[], ["AI"], "AI", 0⟩] ["x"] ["y"] = false :=
  (frequency_c7 [⟨[], ["AI"], "AI", 0⟩] ["x"] ["y"]).1 " \t " (by decide)

/-- `processGroupWord` changes `maxCount` exactly to the value of a valid
`@` line and keeps it otherwise. -/
theorem maxCount_processGroupWord (acc : GroupAcc) (w : String) :
    (processGroupWord acc w).maxCount =
      (match atLineValue w with
       | some n => n
       | none => acc.maxCount) := by
  rw [processGroupWord, atLineValue]
  by_cases h1 : strHeadIs w '@' = true
  · rw [if_pos h1, if_pos h1]
    cases hp : parsePyInt (strDropHead w) with
    | none => rfl
    | some n =>
      dsimp only
      by_cases h2 : n > 0
      · rw [if_pos h2, if_pos h2]
      · rw [if_neg h2, if_neg h2]
  · rw [if_neg h1, if_neg h1]
    by_cases h2 : strHeadIs w '!' = true
    · rw [if_pos h2]
    · rw [if_neg h2]
      by_cases h3 : strHeadIs w '+' = true
      · rw [if_pos h3]
      · rw [if_neg h3]

/-- A run of lines without a valid `@` value leaves `maxCount` unchanged. -/
theorem foldl_maxCount_invalid (ws : List String) (acc : GroupAcc)
    (h : ∀ u ∈ ws, atLineValue u = none) :
    (ws.foldl processGroupWord acc).maxCount = acc.maxCount := by
  induction ws generalizing acc with
  | nil => rfl
  | cons w ws ih =>
    rw [List.foldl_cons, ih _ (fun u hu => h u (List.mem_cons_of_mem w hu)),
      maxCount_processGroupWord, h w (List.mem_cons_self w ws)]

/-- **C8**: an `@N` line sets `max_count` exactly when `N` parses as a
positive integer; any other line leaves it at its prior value (and never
raises — the step function is total); across a block the last valid `@` line
wins; and the lines `"@0"`, `"@-3"`, `"@abc"` each leave `max_count` at its
default 0. -/
theorem frequency_c8 :
    (∀ acc w n, atLineValue w = some n → (processGroupWord acc w).maxCount = n)
  ∧ (∀ acc w, atLineValue w = none → (processGroupWord acc w).maxCount = acc.maxCount)
  ∧ (∀ (pre : List String) (w : String) (n : Int) (post : List String),
        atLineValue w = some n → (∀ u ∈ post, atLineValue u = none) →
        ((pre ++ w :: post).foldl processGroupWord initGroupAcc).maxCount = n)
  ∧ ((["@0"].foldl processGroupWord initGroupAcc).maxCount = 0
     ∧ (["@-3"].foldl processGroupWord initGroupAcc).maxCount = 0
     ∧ (["@abc"].foldl processGroupWord initGroupAcc).maxCount = 0
     ∧ initGroupAcc.maxCount = 0) := by
  refine ⟨?_, ?_, ?_, by decide, by decide, by decide, rfl⟩
  · intro acc w n hw
    rw [maxCount_processGroupWord, hw]
  · intro acc w hw
    rw [maxCount_processGroupWord, hw]
  · intro pre w n post hw hpost
    rw [List.foldl_append, List.foldl_cons, foldl_maxCount_invalid post _ hpost,
      maxCount_processGroupWord, hw]

/-- Witness for C8 at the line `"@7"`. -/
theorem frequency_c8_witness :
    (processGroupWord initGroupAcc "@7").maxCount = 7 :=
  frequency_c8.1 initGroupAcc "@7" 7 (by decide)

/-- **C9 counterexample**: with both mobile-URL spellings present and the
canonical `mobile_url` equal to the empty string, the sanitation pass emits
the legacy `mobileUrl` value, not the canonical one — refuting the claim
that the canonical field wins whenever both are present. -/
theorem generator_c9_counterexample :
    c9Title.mobile_url = some "" ∧ c9Title.mobileUrl = some "https://m.example/x"
  ∧ (processTitle c9Title).mobile_url = "https://m.example/x"
  ∧ (processTitle c9Title).mobile_url ≠ "" := by
  refine ⟨rfl, rfl, rfl, by decide⟩

/-- **C9 (amended)**: the emitted `mobile_url` is the canonical `mobile_url`
field when it is present and non-empty; otherwise the legacy `mobileUrl`
field when present; otherwise the empty string. -/
theorem generator_c9_amended (t : TitleData) :
    (∀ s, t.mobile_url = some s → s ≠ "" → (processTitle t).mobile_url = s)
  ∧ (∀ s, t.mobile_url = some s → s = "" → (processTitle t).mobile_url = t.mobileUrl.getD "")
  ∧ (t.mobile_url = none → (processTitle t).mobile_url = t.mobileUrl.getD "") := by
  refine ⟨?_, ?_, ?_⟩
  · intro s h hs
    simp only [processTitle]
    rw [h]
    dsimp only
    rw [if_neg hs]
  · intro s h hs
    simp only [processTitle]
    rw [h]
    dsimp only
    rw [if_pos hs]
  · intro h
    simp only [processTitle]
    rw [h]

/-- Witness for the amended C9 at a present non-empty canonical field. -/
theorem generator_c9_witness :
    (processTitle { c9Title with mobile_url := some "https://c.example/y" }).mobile_url =
      "https://c.example/y" :=
  (generator_c9_amended { c9Title with mobile_url := some "https://c.example/y" }).1
    "https://c.example/y" rfl (by decide)

/-- `truthyWord` characterization. -/
theorem truthyWord_eq_some (o : Option String) (w : String) :
    truthyWord o = some w ↔ o = some w ∧ w ≠ "" := by
  cases o with
  | none => simp [truthyWord]
  | some v =>
    rw [truthyWord]
    by_cases h : v = ""
    · subst h
      simp only [if_pos rfl]
      constructor
      · intro hv
        exact absurd hv (by simp)
      · rintro ⟨hv, hw⟩
        injection hv with hv'
        exact absurd hv'.symm hw
    · rw [if_neg h]
      constructor
      · intro hv
        injection hv with hv'
        exact ⟨by rw [hv'], by rw [← hv']; exact h⟩
      · rintro ⟨hv, _⟩
        exact hv

/-- `assocGet` on an empty map. -/
theorem assocGet_nil {α : Type} (k : String) : assocGet ([] : List (String × α)) k = none := rfl

/-- `assocGet` on a cons cell. -/
theorem assocGet_cons {α : Type} (p : String × α) (rest : List (String × α)) (k : String) :
    assocGet (p :: rest) k = if p.1 = k then some p.2 else assocGet rest k := by
  rw [assocGet, List.find?_cons]
  by_cases h : p.1 = k
  · have hb : (p.1 == k) = true := by simpa using h
    rw [hb, if_pos h]
    rfl
  · have hb : (p.1 == k) = false := by simpa using h
    rw [hb, if_neg h]
    rfl

/-- Setting an absent key appends the binding at the end. -/
theorem assocSet_absent {α : Type} (m : List (String × α)) (k : String) (v : α)
    (h : assocGet m k = none) : assocSet m k v = m ++ [(k, v)] := by
  induction m with
  | nil => rfl
  | cons p rest ih =>
    rw [assocGet_cons] at h
    by_cases hk : p.1 = k
    · rw [if_pos hk] at h
      exact absurd h (by simp)
    · rw [if_neg hk] at h
      rw [assocSet, if_neg hk, List.cons_append]
      exact congrArg _ (ih h)

/-- Membership after `assocSet`: the new binding or an old one. -/
theorem mem_assocSet {α : Type} (m : List (String × α)) (k : String) (v : α)
    (x : String × α) (h : x ∈ assocSet m k v) : x = (k, v) ∨ x ∈ m := by
  induction m with
  | nil =>
    rw [assocSet] at h
    simp at h
    exact Or.inl h
  | cons p rest ih =>
    rw [assocSet] at h
    by_cases hk : p.1 = k
    · rw [if_pos hk] at h
      rcases List.mem_cons.mp h with rfl | hx
      · exact Or.inl rfl
      · exact Or.inr (List.mem_cons_of_mem _ hx)
    · rw [if_neg hk] at h
      rcases List.mem_cons.mp h with rfl | hx
      · exact Or.inr (List.mem_cons_self _ _)
      · rcases ih hx with h1 | h2
        · exact Or.inl h1
        · exact Or.inr (List.mem_cons_of_mem _ h2)

/-- A successful `assocGet` comes from a binding in the map. -/
theorem mem_of_assocGet {α : Type} (m : List (String × α)) (k : String) (v : α)
    (h : assocGet m k = some v) : (k, v) ∈ m := by
  induction m with
  | nil => exact absurd h (by simp [assocGet])
  | cons p rest ih =>
    rw [assocGet_cons] at h
    by_cases hk : p.1 = k
    · rw [if_pos hk] at h
      injection h with hv
      have hp : p = (k, v) := by
        rw [Prod.ext_iff]
        exact ⟨hk, hv⟩
      rw [← hp]
      exact List.mem_cons_self _ _
    · rw [if_neg hk] at h
      exact List.mem_cons_of_mem _ (ih h)

/-- **C3**: one step of the keyword-RSS merge with a non-empty word: when the
key is present, the entry is replaced in place by the merged record whose
count is the sum of the two counts (absent counts contributing 0), whose
titles are the primary titles followed by the secondary titles (lengths add),
and whose position is the minimum of the two positions with an absent
position defaulting to 999; when the key is absent, the secondary entry is
inserted as a new record at the end. -/
theorem generator_c3 (m : List (String × Stat)) (r : Stat) (w : String)
    (hw : r.word = some w) (hne : w ≠ "") :
    (∀ p, assocGet m w = some p →
        mergeRssStep m r = assocSet m w (mergeStatPair p r)
      ∧ (mergeStatPair p r).count = some (p.count.getD 0 + r.count.getD 0)
      ∧ (mergeStatPair p r).titles = p.titles ++ r.titles
      ∧ (mergeStatPair p r).titles.length = p.titles.length + r.titles.length
      ∧ (mergeStatPair p r).position = some (min (p.position.getD 999) (r.position.getD 999)))
  ∧ (assocGet m w = none → mergeRssStep m r = m ++ [(w, r)]) := by
  have ht : truthyWord r.word = some w := (truthyWord_eq_some r.word w).mpr ⟨hw, hne⟩
  constructor
  · intro p hp
    refine ⟨?_, rfl, rfl, List.length_append p.titles r.titles, rfl⟩
    rw [mergeRssStep, ht]
    dsimp only
    rw [hp]
  · intro hp
    rw [mergeRssStep, ht]
    dsimp only
    rw [hp]
    exact assocSet_absent m w r hp

/-- Witness for C3: merging RSS `count=2` into primary `count=3` under the
same key `"芯片"` yields the in-place merged record (count 5, concatenated
titles, minimum position). -/
theorem generator_c3_witness :
    mergeRssStep [("芯片", c3Primary)] c3Rss =
      assocSet [("芯片", c3Primary)] "芯片" (mergeStatPair c3Primary c3Rss) :=
  ((generator_c3 [("芯片", c3Primary)] c3Rss "芯片" rfl (by decide)).1
    c3Primary (by decide)).1

/-- Every entry of a successful sanitation pass has positive count. -/
theorem processStats_count_pos (l : List Stat) :
    ∀ out, processStats l = some out → ∀ e ∈ out, 0 < e.count := by
  induction l with
  | nil =>
    intro out h e he
    rw [processStats] at h
    injection h with h2
    rw [← h2] at he
    exact absurd he (by simp)
  | cons s rest ih =>
    intro out h e he
    rw [processStats] at h
    cases hc : s.count with
    | none =>
      rw [hc] at h
      exact absurd h (by simp)
    | some c =>
      rw [hc] at h
      dsimp only at h
      by_cases hc0 : c ≤ 0
      · rw [if_pos hc0] at h
        exact ih out h e he
      · rw [if_neg hc0] at h
        cases hw : s.word with
        | none =>
          rw [hw] at h
          exact absurd h (by simp)
        | some w =>
          rw [hw] at h
          dsimp only at h
          cases hr : processStats rest with
          | none =>
            rw [hr] at h
            exact absurd h (by simp)
          | some ps =>
            rw [hr] at h
            dsimp only at h
            injection h with h2
            rw [← h2] at he
            rcases List.mem_cons.mp he with rfl | he'
            · dsimp only
              omega
            · exact ih ps hr e he'

/-- A successful run of `prepare_report_data` computes its `stats` field by
the sanitation pass over the merge stage. -/
theorem prepare_stats_eq (stats : List Stat) (failed_ids : List String)
    (new_titles : List (String × List (String × NewTitleData)))
    (id_to_name : List (String × String)) (mode : String) (rank_threshold : Int)
    (matchesFunc : Option (String → List WordGroup → List String → List String → Bool))
    (loadFunc : Option (Unit → List WordGroup × List String × List String))
    (rss_stats : List Stat) (rss_new_stats : List Stat) :
    ∀ payload,
      prepare_report_data stats failed_ids new_titles id_to_name mode rank_threshold
        matchesFunc loadFunc rss_stats rss_new_stats = some payload →
      processStats (mergeStage stats
          (rss_stats.filter (fun s => !(s.word == some PERSONAL_RSS_GROUP_KEY)))) =
        some payload.stats := by
  intro payload
  simp only [prepare_report_data]
  cases hps : processStats (mergeStage stats
      (rss_stats.filter (fun s => !(s.word == some PERSONAL_RSS_GROUP_KEY)))) with
  | none =>
    intro h
    exact absurd h (by simp)
  | some ps =>
    intro h
    injection h with h2
    rw [← h2]

/-- **C6**: every stat entry of a returned report payload has strictly
positive count — an input entry with `count ≤ 0` is dropped by the final
sanitation pass regardless of its titles. -/
theorem generator_c6 (stats : List Stat) (failed_ids : List String)
    (new_titles : List (String × List (String × NewTitleData)))
    (id_to_name : List (String × String)) (mode : String) (rank_threshold : Int)
    (matchesFunc : Option (String → List WordGroup → List String → List String → Bool))
    (loadFunc : Option (Unit → List WordGroup × List String × List String))
    (rss_stats : List Stat) (rss_new_stats : List Stat) (payload : ReportPayload)
    (h : prepare_report_data stats failed_ids new_titles id_to_name mode rank_threshold
        matchesFunc loadFunc rss_stats rss_new_stats = some payload) :
    ∀ e ∈ payload.stats, 0 < e.count :=
  processStats_count_pos _ payload.stats
    (prepare_stats_eq stats failed_ids new_titles id_to_name mode rank_threshold
      matchesFunc loadFunc rss_stats rss_new_stats payload h)

/-- Witness for C6: a run whose input holds a `count = 0` entry with a
non-empty titles list and a positive entry; only the positive entry's word
survives. -/
theorem generator_c6_witness :
    0 < (⟨"C", 7, 0, []⟩ : ProcessedStat).count :=
  generator_c6 [c6ZeroStat, cexStatC] [] [] [] "daily" 3 none none [] []
    c6Payload (by decide) ⟨"C", 7, 0, []⟩ (by decide)

/-- `lexLeII` is reflexive. -/
theorem lexLeII_refl (a : Int × Int) : lexLeII a a = true := by
  simp [lexLeII]

/-- `lexLeII` is total. -/
theorem lexLeII_total (a b : Int × Int) : lexLeII a b = true ∨ lexLeII b a = true := by
  simp only [lexLeII, Bool.or_eq_true, Bool.and_eq_true, decide_eq_true_eq]
  omega

/-- `lexLeII` is transitive. -/
theorem lexLeII_trans (a b c : Int × Int) (h1 : lexLeII a b = true)
    (h2 : lexLeII b c = true) : lexLeII a c = true := by
  simp only [lexLeII, Bool.or_eq_true, Bool.and_eq_true, decide_eq_true_eq] at h1 h2 ⊢
  omega

/-- **C4 counterexample**: on the spec's own example — merged entries
`A {count 5, no position}`, `B {count 5, position 1}`, `C {count 7}` — the
code sorts to `C, B, A` (B's position 1 precedes A's defaulted 999), not
`C, A, B` as the claim states. -/
theorem generator_c4_counterexample :
    (mergeStage [cexStatA, cexStatB] [cexStatC]).map Stat.word =
        [some "C", some "B", some "A"]
  ∧ (mergeStage [cexStatA, cexStatB] [cexStatC]).map Stat.word ≠
        [some "C", some "A", some "B"] := by
  refine ⟨by decide, by decide⟩

/-- **C4 (amended)**: whenever the merge stage runs (non-empty keyword RSS),
the merged stats are stably sorted by the key `(-count, position)` with an
absent — or zero, since `0 or 999` is 999 in Python — position treated as
999: the output is `lexLeII`-sorted on `statSortKey`, and within every class
of key-equal entries the pre-sort merge order is preserved (stability); on
the spec's example the order is `C, B, A`. -/
theorem generator_c4_amended (stats rss : List Stat) (h : rss ≠ []) :
    (mergeStage stats rss).Pairwise (fun a b => statLe a b = true)
  ∧ (∀ k : Int × Int,
      (mergeStage stats rss).filter (fun s => decide (statSortKey s = k)) =
        (mergeRss stats rss).filter (fun s => decide (statSortKey s = k)))
  ∧ (mergeStage [cexStatA, cexStatB] [cexStatC]).map Stat.word =
        [some "C", some "B", some "A"] := by
  have hne : rss.isEmpty = false := by
    cases rss with
    | nil => exact absurd rfl h
    | cons a l => rfl
  rw [mergeStage, if_neg (by rw [hne]; exact Bool.false_ne_true)]
  refine ⟨?_, ?_, by decide⟩
  · exact pairwise_insSort _
      (fun a b => lexLeII_total (statSortKey a) (statSortKey b))
      (fun a b c => lexLeII_trans (statSortKey a) (statSortKey b) (statSortKey c))
      (mergeRss stats rss)
  · intro k
    exact filter_insSort_key statSortKey lexLeII lexLeII_refl (mergeRss stats rss) k

/-- Witness for the amended C4 on the spec's example inputs. -/
theorem generator_c4_witness :
    (mergeStage [cexStatA, cexStatB] [cexStatC]).Pairwise
      (fun a b => statLe a b = true) :=
  (generator_c4_amended [cexStatA, cexStatB] [cexStatC] (by decide)).1

/-- Words of the values of a map built by `buildPrimaryMap` and extended by
`mergeRssStep` match their keys and are non-empty. -/
theorem buildPrimaryMap_inv (stats : List Stat) :
    ∀ init : List (String × Stat),
      (∀ x ∈ init, x.2.word = some x.1 ∧ x.1 ≠ "") →
      ∀ x ∈ stats.foldl
        (fun m s =>
          match truthyWord s.word with
          | none => m
          | some w => assocSet m w s) init,
        x.2.word = some x.1 ∧ x.1 ≠ "" := by
  induction stats with
  | nil => exact fun init hinit => hinit
  | cons s rest ih =>
    intro init hinit
    rw [List.foldl_cons]
    cases hts : truthyWord s.word with
    | none => exact ih init hinit
    | some w =>
      refine ih _ ?_
      intro x hx
      rcases mem_assocSet init w s x hx with rfl | hx'
      · rcases (truthyWord_eq_some s.word w).mp hts with ⟨hw, hne⟩
        exact ⟨hw, hne⟩
      · exact hinit x hx'

/-- The same invariant is preserved by the RSS merge fold. -/
theorem mergeRssFold_inv (rss : List Stat) :
    ∀ m : List (String × Stat),
      (∀ x ∈ m, x.2.word = some x.1 ∧ x.1 ≠ "") →
      ∀ x ∈ rss.foldl mergeRssStep m, x.2.word = some x.1 ∧ x.1 ≠ "" := by
  induction rss with
  | nil => exact fun m hm => hm
  | cons r rest ih =>
    intro m hm
    rw [List.foldl_cons]
    refine ih _ ?_
    intro x hx
    rw [mergeRssStep] at hx
    cases hts : truthyWord r.word with
    | none =>
      rw [hts] at hx
      exact hm x hx
    | some w =>
      rw [hts] at hx
      dsimp only at hx
      rcases (truthyWord_eq_some r.word w).mp hts with ⟨hw, hne⟩
      cases hg : assocGet m w with
      | some p =>
        rw [hg] at hx
        rcases mem_assocSet m w (mergeStatPair p r) x hx with rfl | hx'
        · have hp := hm (w, p) (mem_of_assocGet m w p hg)
          exact ⟨hp.1, hne⟩
        · exact hm x hx'
      | none =>
        rw [hg] at hx
        rcases mem_assocSet m w r x hx with rfl | hx'
        · exact ⟨hw, hne⟩
        · exact hm x hx'

/-- Every value of the merged map has a non-empty `word`. -/
theorem mergeRss_word (stats rss : List Stat) :
    ∀ s ∈ mergeRss stats rss, ∃ w, s.word = some w ∧ w ≠ "" := by
  intro s hs
  rw [mergeRss] at hs
  rcases List.mem_map.mp hs with ⟨x, hx, rfl⟩
  have := mergeRssFold_inv rss (buildPrimaryMap stats)
    (buildPrimaryMap_inv stats [] (by simp)) x hx
  exact ⟨x.1, this⟩

/-- Every emitted stat's word originates in a stat of the sanitized list. -/
theorem processStats_word_origin (l : List Stat) :
    ∀ out, processStats l = some out →
      ∀ e ∈ out, ∃ s ∈ l, s.word = some e.word := by
  induction l with
  | nil =>
    intro out h e he
    rw [processStats] at h
    injection h with h2
    rw [← h2] at he
    exact absurd he (by simp)
  | cons s rest ih =>
    intro out h e he
    rw [processStats] at h
    cases hc : s.count with
    | none =>
      rw [hc] at h
      exact absurd h (by simp)
    | some c =>
      rw [hc] at h
      dsimp only at h
      by_cases hc0 : c ≤ 0
      · rw [if_pos hc0] at h
        rcases ih out h e he with ⟨s', hs', hw⟩
        exact ⟨s', List.mem_cons_of_mem s hs', hw⟩
      · rw [if_neg hc0] at h
        cases hw : s.word with
        | none =>
          rw [hw] at h
          exact absurd h (by simp)
        | some w =>
          rw [hw] at h
          dsimp only at h
          cases hr : processStats rest with
          | none =>
            rw [hr] at h
            exact absurd h (by simp)
          | some ps =>
            rw [hr] at h
            dsimp only at h
            injection h with h2
            rw [← h2] at he
            rcases List.mem_cons.mp he with rfl | he'
            · exact ⟨s, List.mem_cons_self s rest, hw⟩
            · rcases ih ps hr e he' with ⟨s', hs', hw'⟩
              exact ⟨s', List.mem_cons_of_mem s hs', hw'⟩

/-- **C10**: when at least one RSS stat carries a word different from the
personal-feed sentinel, the merge stage runs and every primary entry with an
absent or empty `word` is dropped: every stat of the returned payload then
has a non-empty word.  Such entries are passed through only when no
keyword-bearing RSS entry is present, as the concrete pass-through run
shows. -/
theorem generator_c10 :
    (∀ (stats : List Stat) (failed_ids : List String)
        (new_titles : List (String × List (String × NewTitleData)))
        (id_to_name : List (String × String)) (mode : String) (rank_threshold : Int)
        (matchesFunc : Option (String → List WordGroup → List String → List String → Bool))
        (loadFunc : Option (Unit → List WordGroup × List String × List String))
        (rss_stats : List Stat) (rss_new_stats : List Stat) (payload : ReportPayload),
        rss_stats.filter (fun s => !(s.word == some PERSONAL_RSS_GROUP_KEY)) ≠ [] →
        prepare_report_data stats failed_ids new_titles id_to_name mode rank_threshold
          matchesFunc loadFunc rss_stats rss_new_stats = some payload →
        ∀ e ∈ payload.stats, e.word ≠ "")
  ∧ prepare_report_data [c10EmptyWordStat] [] [] [] "daily" 3 none none [] [] =
      some { stats := [⟨"", 1, 0, []⟩], new_titles := [], rss_stats := [],
             rss_new_stats := [], failed_ids := [], total_new_count := 0 } := by
  constructor
  · intro stats failed_ids new_titles id_to_name mode rank_threshold mf lf
      rss_stats rss_new_stats payload hne h e he
    have hps := prepare_stats_eq stats failed_ids new_titles id_to_name mode
      rank_threshold mf lf rss_stats rss_new_stats payload h
    have hme : rss_stats.filter (fun s => !(s.word == some PERSONAL_RSS_GROUP_KEY)) ≠ [] := hne
    have hstage : mergeStage stats
        (rss_stats.filter (fun s => !(s.word == some PERSONAL_RSS_GROUP_KEY))) =
        sortStats (mergeRss stats
          (rss_stats.filter (fun s => !(s.word == some PERSONAL_RSS_GROUP_KEY)))) := by
      rw [mergeStage, if_neg]
      intro hemp
      exact hme (List.isEmpty_iff.mp hemp)
    rw [hstage] at hps
    rcases processStats_word_origin _ payload.stats hps e he with ⟨s, hs, hw⟩
    have hs' : s ∈ mergeRss stats
        (rss_stats.filter (fun s => !(s.word == some PERSONAL_RSS_GROUP_KEY))) :=
      (mem_insSort _ _ s).mp hs
    rcases mergeRss_word _ _ s hs' with ⟨w, hw2, hwne⟩
    rw [hw] at hw2
    injection hw2 with hw3
    rw [hw3]
    exact hwne
  · decide

/-- Witness for C10: with an empty-word primary and one keyword RSS stat the
merge runs and every emitted word is non-empty. -/
theorem generator_c10_witness :
    (⟨"C", 7, 0, []⟩ : ProcessedStat).word ≠ "" :=
  generator_c10.1 [c10EmptyWordStat] [] [] [] "daily" 3 none none [cexStatC] []
    c6Payload (by decide) (by decide) ⟨"C", 7, 0, []⟩ (by decide)

/-- `matches_group` as the conjunction of the two quantified conditions of
the spec, for a non-empty title. -/
theorem matches_group_iff (title : String) (h : title ≠ "") (g : WordGroup) :
    matches_group title g = true ↔
      ((g.required = [] ∨
          ∀ w ∈ g.required, keyword_in_title title (codesLower title) w = true) ∧
       (g.normal = [] ∨
          ∃ w ∈ g.normal, keyword_in_title title (codesLower title) w = true)) := by
  rw [matches_group, if_neg h]
  simp only [Bool.and_eq_true, Bool.or_eq_true, List.isEmpty_iff, List.all_eq_true,
    List.any_eq_true]

/-- **C1**: for a non-blank title, `matches_word_groups` admits the title iff
no global filter keyword matches, and either the rulebook has no groups
(pass-through, filter words not consulted) or no flat filter word matches and
some group matches, a group matching iff all its required keywords match
(vacuously if none) and at least one normal keyword matches (vacuously if
none). -/
theorem frequency_c1 (title : String) (word_groups : List WordGroup)
    (filter_words global_filters : List String) (h : pyStrip title ≠ "") :
    matches_word_groups title word_groups filter_words global_filters = true ↔
      ((∀ w ∈ global_filters, keyword_in_title title (codesLower title) w = false) ∧
       (word_groups = [] ∨
         ((∀ w ∈ filter_words, keyword_in_title title (codesLower title) w = false) ∧
          ∃ g ∈ word_groups,
            ((g.required = [] ∨
                ∀ w ∈ g.required, keyword_in_title title (codesLower title) w = true) ∧
             (g.normal = [] ∨
                ∃ w ∈ g.normal, keyword_in_title title (codesLower title) w = true))))) := by
  have htne : title ≠ "" := by
    intro e
    rw [e] at h
    exact h rfl
  rw [matches_word_groups, if_neg h]
  simp only [List.any_eq_true, List.isEmpty_iff]
  constructor
  · intro hb
    by_cases hg : ∃ w ∈ global_filters, keyword_in_title title (codesLower title) w = true
    · rw [if_pos hg] at hb
      exact absurd hb (by simp)
    · rw [if_neg hg] at hb
      push_neg at hg
      have hgf : ∀ w ∈ global_filters, keyword_in_title title (codesLower title) w = false := by
        intro w hw
        rcases Bool.eq_false_or_eq_true (keyword_in_title title (codesLower title) w) with h1 | h1
        · exact absurd h1 (hg w hw)
        · exact h1
      refine ⟨hgf, ?_⟩
      by_cases hwe : word_groups = []
      · exact Or.inl hwe
      · rw [if_neg hwe] at hb
        by_cases hf : ∃ w ∈ filter_words, keyword_in_title title (codesLower title) w = true
        · rw [if_pos hf] at hb
          exact absurd hb (by simp)
        · rw [if_neg hf] at hb
          push_neg at hf
          have hfw : ∀ w ∈ filter_words,
              keyword_in_title title (codesLower title) w = false := by
            intro w hw
            rcases Bool.eq_false_or_eq_true (keyword_in_title title (codesLower title) w)
              with h1 | h1
            · exact absurd h1 (hf w hw)
            · exact h1
          refine Or.inr ⟨hfw, ?_⟩
          rcases List.any_eq_true.mp hb with ⟨g, hg1, hg2⟩
          exact ⟨g, hg1, (matches_group_iff title htne g).mp hg2⟩
  · rintro ⟨hgf, hrest⟩
    have hg : ¬ ∃ w ∈ global_filters, keyword_in_title title (codesLower title) w = true := by
      rintro ⟨w, hw1, hw2⟩
      rw [hgf w hw1] at hw2
      exact Bool.false_ne_true hw2
    rw [if_neg hg]
    rcases hrest with hwe | ⟨hfw, g, hg1, hg2⟩
    · rw [if_pos hwe]
    · have hwne : word_groups ≠ [] := by
        intro he
        rw [he] at hg1
        exact absurd hg1 (by simp)
      rw [if_neg hwne]
      have hf : ¬ ∃ w ∈ filter_words, keyword_in_title title (codesLower title) w = true := by
        rintro ⟨w, hw1, hw2⟩
        rw [hfw w hw1] at hw2
        exact Bool.false_ne_true hw2
      rw [if_neg hf]
      exact List.any_eq_true.mpr ⟨g, hg1, (matches_group_iff title htne g).mpr hg2⟩

/-- Witness for C1: the pass-through rule on a non-blank CJK title with a
filter word present. -/
theorem frequency_c1_witness :
    matches_word_groups "AI新闻" [] ["AI"] [] = true ↔
      ((∀ w ∈ ([] : List String), keyword_in_title "AI新闻" (codesLower "AI新闻") w = false) ∧
       (([] : List WordGroup) = [] ∨
         ((∀ w ∈ ["AI"], keyword_in_title "AI新闻" (codesLower "AI新闻") w = false) ∧
          ∃ g ∈ ([] : List WordGroup),
            ((g.required = [] ∨
                ∀ w ∈ g.required, keyword_in_title "AI新闻" (codesLower "AI新闻") w = true) ∧
             (g.normal = [] ∨
                ∃ w ∈ g.normal, keyword_in_title "AI新闻" (codesLower "AI新闻") w = true))))) :=
  frequency_c1 "AI新闻" [] ["AI"] [] (by decide)

/-- `lowerCode` is idempotent. -/
theorem lowerCode_idem (n : Nat) : lowerCode (lowerCode n) = lowerCode n := by
  simp only [lowerCode]
  split_ifs <;> omega

/-- Double ASCII lowering of a list is single lowering. -/
theorem map_lowerCode_idem (l : List Nat) :
    (l.map lowerCode).map lowerCode = l.map lowerCode := by
  rw [List.map_map]
  exact List.map_congr_left (fun a _ => lowerCode_idem a)

/-- `matchPrefixCI` succeeds with remainder `rest` iff the input splits as a
case-insensitive copy of the keyword followed by `rest`. -/
theorem matchPrefixCI_eq_some (kw : List Nat) :
    ∀ ts rest, matchPrefixCI ts kw = some rest ↔
      ∃ mid, ts = mid ++ rest ∧ mid.map lowerCode = kw.map lowerCode := by
  induction kw with
  | nil =>
    intro ts rest
    rw [matchPrefixCI]
    constructor
    · intro h
      injection h with h'
      exact ⟨[], by rw [h']; rfl, rfl⟩
    · rintro ⟨mid, hts, hmap⟩
      have hmid : mid = [] := by
        cases mid with
        | nil => rfl
        | cons a as => exact absurd hmap (by simp)
      rw [hmid] at hts
      rw [hts]
      rfl
  | cons k ks ih =>
    intro ts rest
    cases ts with
    | nil =>
      rw [matchPrefixCI]
      constructor
      · intro h
        exact absurd h (by simp)
      · rintro ⟨mid, hts, hmap⟩
        have : mid = [] := (List.append_eq_nil.mp hts.symm).1
        rw [this] at hmap
        exact absurd hmap (by simp)
    | cons t ts' =>
      rw [matchPrefixCI]
      by_cases hc : charMatchCI t k = true
      · rw [if_pos hc, ih ts' rest]
        have hck : lowerCode t = lowerCode k := by
          simpa [charMatchCI] using hc
        constructor
        · rintro ⟨mid, h1, h2⟩
          refine ⟨t :: mid, by rw [List.cons_append, h1], ?_⟩
          rw [List.map_cons, List.map_cons, hck, h2]
        · rintro ⟨mid, h1, h2⟩
          cases mid with
          | nil => exact absurd h2 (by simp)
          | cons m ms =>
            rw [List.cons_append] at h1
            injection h1 with h1a h1b
            rw [List.map_cons, List.map_cons] at h2
            injection h2 with h2a h2b
            exact ⟨ms, h1b, h2b⟩
      · rw [if_neg hc]
        constructor
        · intro h
          exact absurd h (by simp)
        · rintro ⟨mid, h1, h2⟩
          cases mid with
          | nil => exact absurd h2 (by simp)
          | cons m ms =>
            rw [List.cons_append] at h1
            injection h1 with h1a h1b
            rw [List.map_cons, List.map_cons] at h2
            injection h2 with h2a h2b
            exact absurd (by simp [charMatchCI, h1a ▸ h2a]) hc

/-- One anchored boundary attempt succeeds iff the look-behind holds and the
input splits as a case-insensitive keyword copy followed by a suffix passing
the look-ahead. -/
theorem matchAtBoundary_iff (kw : List Nat) (prev : Option Nat) (ts : List Nat) :
    matchAtBoundary kw prev ts = true ↔
      boundaryOkBefore prev = true ∧
      ∃ mid post, ts = mid ++ post ∧ mid.map lowerCode = kw.map lowerCode ∧
        boundaryOkAfter post = true := by
  rw [matchAtBoundary, Bool.and_eq_true]
  constructor
  · rintro ⟨hb, hm⟩
    refine ⟨hb, ?_⟩
    cases hp : matchPrefixCI ts kw with
    | none =>
      rw [hp] at hm
      exact absurd hm (by simp)
    | some rest =>
      rw [hp] at hm
      rcases (matchPrefixCI_eq_some kw ts rest).mp hp with ⟨mid, h1, h2⟩
      exact ⟨mid, rest, h1, h2, hm⟩
  · rintro ⟨hb, mid, post, h1, h2, h3⟩
    refine ⟨hb, ?_⟩
    have hp : matchPrefixCI ts kw = some post :=
      (matchPrefixCI_eq_some kw ts post).mpr ⟨mid, h1, h2⟩
    rw [hp]
    exact h3

/-- Peeling one consumed character off the look-behind context. -/
theorem beforeOk_cons (prev : Option Nat) (c : Nat) (pre : List Nat) :
    beforeOk prev (c :: pre) = beforeOk (some c) pre := by
  cases pre with
  | nil => rfl
  | cons d pre' =>
    rw [beforeOk, beforeOk, List.getLast?_cons_cons]
    obtain ⟨x, hx⟩ : ∃ x, (d :: pre').getLast? = some x := by
      cases hl : (d :: pre').getLast? with
      | some x => exact ⟨x, rfl⟩
      | none => exact absurd (List.getLast?_eq_none_iff.mp hl) (by simp)
    rw [hx]

/-- Correctness of the left-to-right boundary search, generalized over the
preceding character. -/
theorem boundarySearchAux_iff (kw : List Nat) :
    ∀ ts prev, boundarySearchAux kw prev ts = true ↔
      ∃ pre mid post, ts = pre ++ mid ++ post ∧
        mid.map lowerCode = kw.map lowerCode ∧
        beforeOk prev pre = true ∧ boundaryOkAfter post = true := by
  intro ts
  induction ts with
  | nil =>
    intro prev
    rw [boundarySearchAux, matchAtBoundary_iff]
    constructor
    · rintro ⟨hb, mid, post, h1, h2, h3⟩
      exact ⟨[], mid, post, h1, h2, hb, h3⟩
    · rintro ⟨pre, mid, post, h1, h2, h3, h4⟩
      rcases List.append_eq_nil.mp h1.symm with ⟨hpm, hpost⟩
      rcases List.append_eq_nil.mp hpm with ⟨hpre, hmid⟩
      rw [hpre] at h3
      refine ⟨h3, mid, post, ?_, h2, h4⟩
      rw [hmid, hpost]
      rfl
  | cons c ts' ih =>
    intro prev
    rw [boundarySearchAux, Bool.or_eq_true, matchAtBoundary_iff, ih (some c)]
    constructor
    · rintro (⟨hb, mid, post, h1, h2, h3⟩ | ⟨pre, mid, post, h1, h2, h3, h4⟩)
      · exact ⟨[], mid, post, h1, h2, hb, h3⟩
      · exact ⟨c :: pre, mid, post, by rw [h1, List.cons_append, List.cons_append], h2,
          by rw [beforeOk_cons]; exact h3, h4⟩
    · rintro ⟨pre, mid, post, h1, h2, h3, h4⟩
      cases pre with
      | nil =>
        exact Or.inl ⟨h3, mid, post, by simpa using h1, h2, h4⟩
      | cons p pre' =>
        rw [List.cons_append] at h1
        injection h1 with h1a h1b
        refine Or.inr ⟨pre', mid, post, h1b, h2, ?_, h4⟩
        rw [← h1a] at h3
        rw [beforeOk_cons] at h3
        exact h3

/-- The empty look-behind context as the claim phrases it. -/
theorem beforeOk_none_iff (pre : List Nat) :
    beforeOk none pre = true ↔
      (∀ c, pre.getLast? = some c → isAsciiAlnumCode c = false) := by
  rw [beforeOk]
  cases hl : pre.getLast? with
  | none =>
    simp [boundaryOkBefore]
  | some c =>
    simp only [Bool.not_eq_true']
    constructor
    · intro h c' hc'
      injection hc' with hc''
      rw [← hc'']
      exact h
    · intro h
      exact h c rfl

/-- The look-ahead as the claim phrases it. -/
theorem boundaryOkAfter_iff (post : List Nat) :
    boundaryOkAfter post = true ↔
      (∀ c, post.head? = some c → isAsciiAlnumCode c = false) := by
  cases post with
  | nil => simp [boundaryOkAfter]
  | cons c post' =>
    rw [boundaryOkAfter]
    simp only [Bool.not_eq_true', List.head?_cons]
    constructor
    · intro h c' hc'
      injection hc' with hc''
      rw [← hc'']
      exact h
    · intro h
      exact h c rfl

/-- `startsWithSeq` characterization. -/
theorem startsWithSeq_iff (needle : List Nat) :
    ∀ hay, startsWithSeq hay needle = true ↔ ∃ rest, hay = needle ++ rest := by
  induction needle with
  | nil =>
    intro hay
    constructor
    · intro _
      exact ⟨hay, rfl⟩
    · intro _
      rw [startsWithSeq.eq_def]
      cases hay <;> rfl
  | cons k ks ih =>
    intro hay
    cases hay with
    | nil =>
      rw [startsWithSeq]
      constructor
      · intro h
        exact absurd h (by simp)
      · rintro ⟨rest, h⟩
        exact absurd h (by simp)
    | cons h hs =>
      rw [startsWithSeq, Bool.and_eq_true, beq_iff_eq, ih hs]
      constructor
      · rintro ⟨rfl, rest, hr⟩
        exact ⟨rest, by rw [List.cons_append, hr]⟩
      · rintro ⟨rest, he⟩
        rw [List.cons_append] at he
        injection he with h1 h2
        exact ⟨h1, rest, h2⟩

/-- Python's substring containment: `containsSeq` finds `needle` iff `hay`
splits around a copy of it. -/
theorem containsSeq_iff (needle : List Nat) :
    ∀ hay, containsSeq hay needle = true ↔ ∃ pre post, hay = pre ++ needle ++ post := by
  intro hay
  induction hay with
  | nil =>
    rw [containsSeq]
    try dsimp only
    rw [Bool.or_false, startsWithSeq_iff]
    constructor
    · rintro ⟨rest, h⟩
      exact ⟨[], rest, h⟩
    · rintro ⟨pre, post, h⟩
      rcases List.append_eq_nil.mp h.symm with ⟨hpn, hpost⟩
      rcases List.append_eq_nil.mp hpn with ⟨hpre, hneedle⟩
      refine ⟨post, ?_⟩
      rw [hneedle, hpost]
      rfl
  | cons c cs ih =>
    rw [containsSeq]
    try dsimp only
    rw [Bool.or_eq_true, startsWithSeq_iff, ih]
    constructor
    · rintro (⟨rest, h⟩ | ⟨pre, post, h⟩)
      · exact ⟨[], rest, h⟩
      · exact ⟨c :: pre, post, by rw [h, List.cons_append, List.cons_append]⟩
    · rintro ⟨pre, post, h⟩
      cases pre with
      | nil =>
        exact Or.inl ⟨post, by simpa using h⟩
      | cons p pre' =>
        rw [List.cons_append] at h
        injection h with h1 h2
        exact Or.inr ⟨pre', post, h2⟩

/-- **C2 counterexample**: the empty keyword is not boundary-matched, so the
claim says it matches iff it is a (case-insensitive) substring — which the
empty string always is — yet `_keyword_in_title` returns false for it. -/
theorem frequency_c2_counterexample :
    keyword_in_title "x" (codesLower "x") "" = false
  ∧ should_use_ascii_word_boundary "" = false
  ∧ substrCISpec "" "x" := by
  refine ⟨by decide, by decide, ⟨[], [], codes "x", rfl, rfl⟩⟩

/-- **C2 (amended)**: for every non-empty keyword — the empty keyword never
matches — the ASCII-boundary rule is used iff the keyword is 2–4 characters
of pure ASCII letters/digits; a boundary-rule keyword matches iff it occurs
case-insensitively with no ASCII letter/digit immediately before or after;
every other keyword matches iff it is a case-insensitive substring; and `AI`
matches `AI新能源汽车` and `全球AI发展` but neither `Air quality` nor
`arrAIgned`. -/
theorem frequency_c2_amended (keyword title : String) (hk : keyword ≠ "") :
    (should_use_ascii_word_boundary keyword = true ↔
      (2 ≤ keyword.length ∧ keyword.length ≤ 4 ∧
       ∀ n ∈ codes keyword, n < 128 ∧ isAsciiAlnumCode n = true))
  ∧ (should_use_ascii_word_boundary keyword = true →
      (keyword_in_title title (codesLower title) keyword = true ↔
        boundaryHitSpec keyword title))
  ∧ (should_use_ascii_word_boundary keyword = false →
      (keyword_in_title title (codesLower title) keyword = true ↔
        substrCISpec keyword title))
  ∧ (keyword_in_title "AI新能源汽车" (codesLower "AI新能源汽车") "AI" = true
     ∧ keyword_in_title "全球AI发展" (codesLower "全球AI发展") "AI" = true
     ∧ keyword_in_title "Air quality" (codesLower "Air quality") "AI" = false
     ∧ keyword_in_title "arrAIgned" (codesLower "arrAIgned") "AI" = false) := by
  refine ⟨?_, ?_, ?_, by decide, by decide, by decide, by decide⟩
  · rw [should_use_ascii_word_boundary, if_neg hk]
    split_ifs with hlen
    · constructor
      · intro hfalse
        exact absurd hfalse (by simp)
      · rintro ⟨h2, h4, _⟩
        exfalso
        simp only [Bool.or_eq_true, decide_eq_true_eq] at hlen
        omega
    · simp only [Bool.or_eq_true, decide_eq_true_eq, not_or, not_lt] at hlen
      obtain ⟨hl2, hl4⟩ := hlen
      simp only [Bool.and_eq_true, List.all_eq_true, decide_eq_true_eq]
      constructor
      · rintro ⟨ha, hb⟩
        exact ⟨hl2, by omega, fun n hn => ⟨ha n hn, hb n hn⟩⟩
      · rintro ⟨_, _, hc⟩
        exact ⟨fun n hn => (hc n hn).1, fun n hn => (hc n hn).2⟩
  · intro hb
    rw [keyword_in_title, if_neg hk, if_pos hb, boundarySearch, boundarySearchAux_iff]
    simp only [boundaryHitSpec]
    constructor
    · rintro ⟨pre, mid, post, h1, h2, h3, h4⟩
      refine ⟨pre, mid, post, h1, ?_, (beforeOk_none_iff pre).mp h3,
        (boundaryOkAfter_iff post).mp h4⟩
      rw [h2]
      exact map_lowerCode_idem (codes keyword)
    · rintro ⟨pre, mid, post, h1, h2, h3, h4⟩
      refine ⟨pre, mid, post, h1, ?_, (beforeOk_none_iff pre).mpr h3,
        (boundaryOkAfter_iff post).mpr h4⟩
      rw [h2]
      exact (map_lowerCode_idem (codes keyword)).symm
  · intro hb
    rw [keyword_in_title, if_neg hk,
      if_neg (by rw [hb]; exact Bool.false_ne_true), containsSeq_iff]
    simp only [substrCISpec]
    constructor
    · rintro ⟨pre', post', h⟩
      have h' : (pre' ++ codesLower keyword) ++ post' = (codes title).map lowerCode := h.symm
      rcases List.append_eq_map_iff.mp h' with ⟨l₁, l₂, hsplit, hm1, hm2⟩
      rcases List.append_eq_map_iff.mp hm1.symm with ⟨m₁, m₂, hsplit2, hn1, hn2⟩
      refine ⟨m₁, m₂, l₂, ?_, ?_⟩
      · rw [hsplit, hsplit2]
      · rw [hn2]
        rfl
    · rintro ⟨pre, mid, post, h1, h2⟩
      refine ⟨pre.map lowerCode, post.map lowerCode, ?_⟩
      show (codes title).map lowerCode = _
      rw [h1]
      simp only [List.map_append]
      rw [h2]
      rfl

/-- Witness for the amended C2: the boundary-rule characterization at the
keyword `"AI"`. -/
theorem frequency_c2_witness :
    should_use_ascii_word_boundary "AI" = true ↔
      (2 ≤ ("AI" : String).length ∧ ("AI" : String).length ≤ 4 ∧
       ∀ n ∈ codes "AI", n < 128 ∧ isAsciiAlnumCode n = true) :=
  (frequency_c2_amended "AI" "Air quality" (by decide)).1

/-- `assocGet` after setting the same key. -/
theorem assocGet_assocSet_self {α : Type} (m : List (String × α)) (k : String) (v : α) :
    assocGet (assocSet m k v) k = some v := by
  induction m with
  | nil =>
    rw [assocSet, assocGet_cons]
    simp
  | cons p rest ih =>
    rw [assocSet]
    by_cases hk : p.1 = k
    · rw [if_pos hk, assocGet_cons]
      simp
    · rw [if_neg hk, assocGet_cons, if_neg hk]
      exact ih

/-- `assocGet` after setting a different key. -/
theorem assocGet_assocSet_ne {α : Type} (m : List (String × α)) (k : String) (v : α)
    (n : String) (h : n ≠ k) : assocGet (assocSet m k v) n = assocGet m n := by
  induction m with
  | nil =>
    rw [assocSet, assocGet_cons, if_neg (Ne.symm h)]
  | cons p rest ih =>
    rw [assocSet]
    by_cases hk : p.1 = k
    · rw [if_pos hk, assocGet_cons, assocGet_cons,
        if_neg (show ¬((k, v).1 = n) from Ne.symm h),
        if_neg (show ¬(p.1 = n) by rw [hk]; exact Ne.symm h)]
    · rw [if_neg hk, assocGet_cons, assocGet_cons, ih]

/-- Keys after `assocSet` come from the new key or the old keys. -/
theorem mem_keys_assocSet {α : Type} (m : List (String × α)) (k : String) (v : α)
    (x : String) (h : x ∈ (assocSet m k v).map Prod.fst) :
    x = k ∨ x ∈ m.map Prod.fst := by
  rcases List.mem_map.mp h with ⟨p, hp, rfl⟩
  rcases mem_assocSet m k v p hp with rfl | hp'
  · exact Or.inl rfl
  · exact Or.inr (List.mem_map_of_mem Prod.fst hp')

/-- `assocSet` preserves distinctness of keys. -/
theorem nodup_keys_assocSet {α : Type} (m : List (String × α)) (k : String) (v : α)
    (h : (m.map Prod.fst).Nodup) : ((assocSet m k v).map Prod.fst).Nodup := by
  induction m with
  | nil => simp [assocSet]
  | cons p rest ih =>
    rw [List.map_cons, List.nodup_cons] at h
    obtain ⟨hp, hrest⟩ := h
    rw [assocSet]
    by_cases hk : p.1 = k
    · rw [if_pos hk, List.map_cons, List.nodup_cons]
      refine ⟨?_, hrest⟩
      rw [show ((k, v) : String × α).1 = k from rfl, ← hk]
      exact hp
    · rw [if_neg hk, List.map_cons, List.nodup_cons]
      refine ⟨?_, ih hrest⟩
      intro hmem
      rcases mem_keys_assocSet rest k v p.1 hmem with h1 | h1
      · exact hk h1
      · exact hp h1

/-- With distinct keys, membership determines the `assocGet` result. -/
theorem assocGet_of_mem_nodup {α : Type} (m : List (String × α))
    (h : (m.map Prod.fst).Nodup) (n : String) (items : α)
    (hm : (n, items) ∈ m) : assocGet m n = some items := by
  induction m with
  | nil => exact absurd hm (by simp)
  | cons p rest ih =>
    rw [List.map_cons, List.nodup_cons] at h
    obtain ⟨hp, hrest⟩ := h
    rw [assocGet_cons]
    rcases List.mem_cons.mp hm with he | hm'
    · rw [← he, if_pos rfl]
    · have hne : p.1 ≠ n := by
        intro he
        apply hp
        rw [he]
        exact List.mem_map_of_mem Prod.fst hm'
      rw [if_neg hne]
      exact ih hrest hm'

/-- The `groupByFeed` fold keeps keys distinct. -/
theorem groupByFeed_keys_nodup (ts : List TitleData) :
    ((groupByFeed ts).map Prod.fst).Nodup := by
  suffices h : ∀ (l : List TitleData) (init : List (String × List TitleData)),
      (init.map Prod.fst).Nodup →
      ((l.foldl (fun m t =>
          assocSet m (feedNameOf t) (((assocGet m (feedNameOf t)).getD []) ++ [t])) init).map
        Prod.fst).Nodup by
    exact h ts [] (by simp)
  intro l
  induction l with
  | nil => exact fun init h => h
  | cons t l' ih =>
    intro init h
    rw [List.foldl_cons]
    exact ih _ (nodup_keys_assocSet _ _ _ h)

/-- Invariant of the `setdefault`-append fold: each key's bucket is the
filter of the already-processed titles by that feed name. -/
theorem groupByFeed_fold_getD (l : List TitleData) :
    ∀ (init : List (String × List TitleData)) (done : List TitleData),
      (∀ n, (assocGet init n).getD [] = done.filter (fun t => feedNameOf t == n)) →
      ∀ n, (assocGet (l.foldl (fun m t =>
          assocSet m (feedNameOf t) (((assocGet m (feedNameOf t)).getD []) ++ [t])) init) n).getD
          [] =
        (done ++ l).filter (fun t => feedNameOf t == n) := by
  induction l with
  | nil =>
    intro init done hinv n
    rw [List.foldl_nil, List.append_nil]
    exact hinv n
  | cons t l' ih =>
    intro init done hinv n
    rw [List.foldl_cons]
    have hstep : ∀ n', (assocGet (assocSet init (feedNameOf t)
        (((assocGet init (feedNameOf t)).getD []) ++ [t])) n').getD [] =
        (done ++ [t]).filter (fun u => feedNameOf u == n') := by
      intro n'
      by_cases hn : n' = feedNameOf t
      · rw [hn, assocGet_assocSet_self, Option.getD_some, hinv (feedNameOf t),
          List.filter_append]
        congr 1
        simp [List.filter_cons]
      · rw [assocGet_assocSet_ne _ _ _ _ hn, hinv n', List.filter_append]
        have ht : [t].filter (fun u => feedNameOf u == n') = [] := by
          simp only [List.filter_cons, List.filter_nil]
          rw [if_neg]
          intro hc
          exact hn (beq_iff_eq.mp hc).symm
        rw [ht, List.append_nil]
    have hres := ih _ (done ++ [t]) hstep n
    rw [List.append_assoc, List.singleton_append] at hres
    exact hres

/-- Each `groupByFeed` bucket is the feed-name filter of the input. -/
theorem groupByFeed_getD (ts : List TitleData) (n : String) :
    (assocGet (groupByFeed ts) n).getD [] = ts.filter (fun t => feedNameOf t == n) := by
  have h := groupByFeed_fold_getD ts [] [] (fun n' => rfl) n
  rw [List.nil_append] at h
  exact h

/-- A bucket listed by `groupByFeed` holds exactly the titles of its feed, in
input order. -/
theorem mem_groupByFeed (ts : List TitleData) (n : String) (items : List TitleData)
    (h : (n, items) ∈ groupByFeed ts) :
    items = ts.filter (fun t => feedNameOf t == n) := by
  have hget := assocGet_of_mem_nodup (groupByFeed ts) (groupByFeed_keys_nodup ts) n items h
  have hgd := groupByFeed_getD ts n
  rw [hget, Option.getD_some] at hgd
  exact hgd

/-- The rank comparator is total. -/
theorem rankLe_total (a b : TitleData) :
    decide (rankKey a ≤ rankKey b) = true ∨ decide (rankKey b ≤ rankKey a) = true := by
  rcases le_total (rankKey a) (rankKey b) with h | h
  · exact Or.inl (decide_eq_true h)
  · exact Or.inr (decide_eq_true h)

/-- The rank comparator is transitive. -/
theorem rankLe_trans (a b c : TitleData) (h1 : decide (rankKey a ≤ rankKey b) = true)
    (h2 : decide (rankKey b ≤ rankKey c) = true) :
    decide (rankKey a ≤ rankKey c) = true :=
  decide_eq_true (le_trans (of_decide_eq_true h1) (of_decide_eq_true h2))

/-- The feed-summary comparator is total. -/
theorem feedLe_total (a b : String × List TitleData × Int) :
    feedLe a b = true ∨ feedLe b a = true := by
  simp only [feedLe, Bool.or_eq_true, Bool.and_eq_true, decide_eq_true_eq]
  rcases lt_trichotomy a.2.2 b.2.2 with h | h | h
  · exact Or.inl (Or.inl h)
  · rcases lt_trichotomy b.2.1.length a.2.1.length with h2 | h2 | h2
    · exact Or.inl (Or.inr ⟨h, Or.inl h2⟩)
    · rcases le_total a.1 b.1 with h3 | h3
      · exact Or.inl (Or.inr ⟨h, Or.inr ⟨h2.symm, h3⟩⟩)
      · exact Or.inr (Or.inr ⟨h.symm, Or.inr ⟨h2, h3⟩⟩)
    · exact Or.inr (Or.inr ⟨h.symm, Or.inl h2⟩)
  · exact Or.inr (Or.inl h)

/-- The feed-summary comparator is transitive. -/
theorem feedLe_trans (a b c : String × List TitleData × Int)
    (h1 : feedLe a b = true) (h2 : feedLe b c = true) : feedLe a c = true := by
  simp only [feedLe, Bool.or_eq_true, Bool.and_eq_true, decide_eq_true_eq] at h1 h2 ⊢
  rcases h1 with h1 | ⟨e1, h1⟩
  · rcases h2 with h2 | ⟨e2, h2⟩
    · exact Or.inl (lt_trans h1 h2)
    · exact Or.inl (e2 ▸ h1)
  · rcases h2 with h2 | ⟨e2, h2⟩
    · exact Or.inl (e1 ▸ h2)
    · refine Or.inr ⟨e1.trans e2, ?_⟩
      rcases h1 with h1 | ⟨f1, h1⟩
      · rcases h2 with h2 | ⟨f2, h2⟩
        · exact Or.inl (lt_trans h2 h1)
        · exact Or.inl (f2 ▸ h1)
      · rcases h2 with h2 | ⟨f2, h2⟩
        · refine Or.inl ?_
          omega
        · exact Or.inr ⟨f1.trans f2, le_trans h1 h2⟩

/-- The payload components of an `enumFrom` cell belong to the base list. -/
theorem snd_mem_of_mem_enumFrom {α : Type} :
    ∀ (l : List α) (i : Nat) (p : Nat × α), p ∈ List.enumFrom i l → p.2 ∈ l := by
  intro l
  induction l with
  | nil =>
    intro i p h
    exact absurd h (by simp [List.enumFrom])
  | cons a l' ih =>
    intro i p h
    rw [List.enumFrom] at h
    rcases List.mem_cons.mp h with rfl | h'
    · exact List.mem_cons_self _ _
    · exact List.mem_cons_of_mem _ (ih (i + 1) p h')

/-- **C5**: personal-feed regrouping.  Every feed summary's items are the
input titles of that feed (blank `source_name` bucketed as `"RSS"` via
`feedNameOf`), stably sorted ascending by minimum rank (missing/empty ranks
as 999) and then cleaned; its latest rank is the rank key of the first sorted
item; summaries are ordered by (latest rank ascending, item count descending,
feed name ascending); emitted stats carry `word` = feed name (via the
summaries), `count` = number of items, `position` = ordinal index after
ordering, `percentage` = 0, and cleaned titles with empty `ranks` and
`source_name`; on the example, Feed2 (rank 1) precedes Feed1, whose rank-2
item precedes its rank-5 item. -/
theorem generator_c5 (personal : List Stat) :
    (∀ x ∈ feedSummaries personal,
        x.2.1 = (sortByRank ((flattenPersonal personal).filter
            (fun t => feedNameOf t == x.1))).map cleanItem
      ∧ x.2.2 = latestRank (sortByRank ((flattenPersonal personal).filter
            (fun t => feedNameOf t == x.1))))
  ∧ (∀ bucket : List TitleData,
        (sortByRank bucket).Pairwise (fun a b => rankKey a ≤ rankKey b)
      ∧ ∀ k : Int, (sortByRank bucket).filter (fun t => decide (rankKey t = k)) =
          bucket.filter (fun t => decide (rankKey t = k)))
  ∧ (feedSummaries personal).Pairwise (fun a b => feedLe a b = true)
  ∧ (personalFeedStats personal).map Stat.position =
      (List.range (personalFeedStats personal).length).map (fun i => some (Int.ofNat i))
  ∧ (∀ s ∈ personalFeedStats personal,
        s.percentage = some 0 ∧ s.count = some (Int.ofNat s.titles.length)
      ∧ ∀ t ∈ s.titles, t.ranks = [] ∧ t.source_name = "")
  ∧ ((personalFeedStats [c5Personal]).map Stat.word = [some "Feed2", some "Feed1"]
     ∧ (personalFeedStats [c5Personal]).map Stat.position = [some 0, some 1]
     ∧ ((personalFeedStats [c5Personal]).map Stat.titles).map
          (fun l => l.map TitleData.title) = [["f2-r1"], ["f1-r2", "f1-r5"]]) := by
  have hsum : ∀ x ∈ feedSummaries personal,
      x.2.1 = (sortByRank ((flattenPersonal personal).filter
          (fun t => feedNameOf t == x.1))).map cleanItem
    ∧ x.2.2 = latestRank (sortByRank ((flattenPersonal personal).filter
          (fun t => feedNameOf t == x.1))) := by
    intro x hx
    simp only [feedSummaries] at hx
    rw [mem_insSort] at hx
    rcases List.mem_map.mp hx with ⟨p, hp, rfl⟩
    obtain ⟨n, items⟩ := p
    have hitems := mem_groupByFeed (flattenPersonal personal) n items hp
    dsimp only
    rw [← hitems]
    exact ⟨rfl, rfl⟩
  refine ⟨hsum, ?_, ?_, ?_, ?_, by decide, by decide, by decide⟩
  · intro bucket
    constructor
    · exact (pairwise_insSort _ rankLe_total rankLe_trans bucket).imp
        (fun h => of_decide_eq_true h)
    · intro k
      exact filter_insSort_key rankKey (fun x y => decide (x ≤ y))
        (fun k' => decide_eq_true (le_refl k')) bucket k
  · exact pairwise_insSort feedLe feedLe_total feedLe_trans _
  · by_cases hp : personal.isEmpty
    · rw [personalFeedStats, if_pos hp]
      rfl
    · rw [personalFeedStats, if_neg hp]
      generalize feedSummaries personal = l
      rw [List.map_map]
      have hcomp : (Stat.position ∘ (fun p : Nat × (String × List TitleData × Int) =>
          ({ word := some p.2.1, count := some (Int.ofNat p.2.2.1.length),
             position := some (Int.ofNat p.1), percentage := some 0,
             titles := p.2.2.1 } : Stat))) =
          (fun p : Nat × (String × List TitleData × Int) => some (Int.ofNat p.1)) := rfl
      rw [hcomp, List.length_map, List.enum_length,
        show (fun p : Nat × (String × List TitleData × Int) => some (Int.ofNat p.1)) =
          ((fun i => some (Int.ofNat i)) ∘ Prod.fst) from rfl,
        ← List.map_map, List.enum_map_fst]
  · intro s hs
    rw [personalFeedStats] at hs
    by_cases hp : personal.isEmpty
    · rw [if_pos hp] at hs
      exact absurd hs (by simp)
    · rw [if_neg hp] at hs
      rcases List.mem_map.mp hs with ⟨p, hp2, rfl⟩
      refine ⟨rfl, rfl, ?_⟩
      intro t ht
      have hmem : p.2 ∈ feedSummaries personal :=
        snd_mem_of_mem_enumFrom (feedSummaries personal) 0 p hp2
      have hx := (hsum p.2 hmem).1
      dsimp only at ht
      rw [hx] at ht
      rcases List.mem_map.mp ht with ⟨u, _, rfl⟩
      exact ⟨rfl, rfl⟩

/-- Witness for C5: the example regrouping instantiated from the theorem. -/
theorem generator_c5_witness :
    (personalFeedStats [c5Personal]).map Stat.word = [some "Feed2", some "Feed1"] :=
  (generator_c5 [c5Personal]).2.2.2.2.2.1
